import Mathlib

/-!
Verification development for the `ArmLengthSimulation` program (`src/index.ts`).

Modelling conventions:

* JavaScript floating-point numbers are modelled as exact rationals (`ℚ`);
  `Math.PI` is modelled as the exact rational value of the IEEE-754 double
  that JavaScript's `Math.PI` denotes.
* The partition search (`findNumbers` / `findAllCombinations`) works on
  natural numbers: the program only ever feeds it positive integer domains
  and non-negative integer targets.
* The source's `findNumbers` is recursive with no structural measure
  (its recursion strictly decreases the remaining `sum` only when every
  domain element is positive, and diverges on a domain containing `0`).
  The embedding therefore takes an explicit `fuel` argument bounding the
  recursion depth; `findAllCombinations` supplies `sum + 1`, which is
  proved sufficient for positive domains (see the termination theorem).
* JavaScript's default `Array.prototype.sort()` (used in
  `findAllCombinations` with no comparator) sorts by comparing the decimal
  string representations of the numbers; `jsLe` models that comparator and
  the sort is modelled by the stable `List.insertionSort`, which agrees
  with any JS sort on the deduplicated (hence pairwise-distinct) input.
* The source's backtracking `temp.push` / `temp.splice(temp.indexOf …)`
  pair always removes exactly the element just pushed (the input list is
  deduplicated, so all occurrences of a value in `temp` are contiguous and
  final); it is modelled by passing `temp ++ [value]` to the recursive call.
-/

/-! ### Physical model: Segment (structural segment leaf) -/

namespace Segment

def SEGMENT_WIDTH : ℚ := 6

def MATERIAL_THICKNESS : ℚ := 0.23622

def MATERIAL_DENSITY : ℚ := 0.0975437

/-- Exact rational value of the IEEE-754 double denoted by `Math.PI`. -/
def MATH_PI : ℚ := 884279719003555 / 281474976710656

def HOLE_AREA : ℚ := 3.9 + 1.1

def ROUND_AREA : ℚ := SEGMENT_WIDTH * SEGMENT_WIDTH - MATH_PI * (SEGMENT_WIDTH / 2) ^ 2

def TOTAL_NEGATIVE_AREA : ℚ := HOLE_AREA + ROUND_AREA

def BEARING_EDGE_DISTANCE : ℚ := 3

/-- Source name: `WEIGHT_REDUCTION_RATIO` (shortened here). -/
def WEIGHT_REDUCTION : ℚ := 0.4

/-- The `materialMass` field computed in the `Segment` constructor. -/
def materialMass (length : ℚ) : ℚ :=
  let lengthWithEdges := length + 2 * BEARING_EDGE_DISTANCE
  let segmentArea := lengthWithEdges * SEGMENT_WIDTH - TOTAL_NEGATIVE_AREA
  let segmentVolume := segmentArea * MATERIAL_THICKNESS
  let segmentMass := segmentVolume * MATERIAL_DENSITY * WEIGHT_REDUCTION
  segmentMass * 2

def CAN_SPARK_MAX : ℚ := 0.25

def NEO_MOTOR_MASS : ℚ := 0.938

def GEARBOX_BASE_KIT_MASS : ℚ := 0.576

def GEARBOX_5_STAGE_MASS : ℚ := 0.303

def CHAIN_SPROCKET_MASS : ℚ := 0.5

def getMass (length : ℚ) : ℚ :=
  materialMass length + CAN_SPARK_MAX + NEO_MOTOR_MASS + GEARBOX_BASE_KIT_MASS +
    GEARBOX_5_STAGE_MASS * 3 + CHAIN_SPROCKET_MASS

def getLength (length : ℚ) : ℚ := length

def MASS_OFFSET : ℚ := 5

def getCenterOfMass (length : ℚ) : ℚ := length - MASS_OFFSET

end Segment

/-! ### Physical model: Grabber (end effector leaf) -/

namespace Grabber

def getMass : ℚ := 7.5

def getLength : ℚ := 12

def getCenterOfMass : ℚ := 4

end Grabber

/-- A leaf component of an `Arm`: the source's `Massive` objects that can
appear in `Arm.components` (a `Segment` per configured length, plus the
final `Grabber`). -/
inductive Component where
  | segment (length : ℚ)
  | grabber
  deriving DecidableEq

def Component.getMass : Component → ℚ
  | .segment len => Segment.getMass len
  | .grabber => Grabber.getMass

def Component.getLength : Component → ℚ
  | .segment len => Segment.getLength len
  | .grabber => Grabber.getLength

def Component.getCenterOfMass : Component → ℚ
  | .segment len => Segment.getCenterOfMass len
  | .grabber => Grabber.getCenterOfMass

/-- `Massive.getTorqueAtBase` of the abstract base class, for leaves. -/
def Component.getTorqueAtBase (c : Component) : ℚ := c.getCenterOfMass * c.getMass

/-! ### Physical model: Arm (composite)

An `Arm` is determined by its constructor argument, the ordered list of
segment lengths; its `components` list is one `Segment` per length followed
by exactly one `Grabber`. -/

namespace Arm

def components (segmentLengths : List ℚ) : List Component :=
  (segmentLengths.map Component.segment) ++ [Component.grabber]

def getMass (segmentLengths : List ℚ) : ℚ :=
  (components segmentLengths).foldl (fun acc component => acc + component.getMass) 0

def getLength (segmentLengths : List ℚ) : ℚ :=
  (components segmentLengths).foldl (fun acc component => acc + component.getLength) 0

/-- The list `d` of distances accumulated in `Arm.getCenterOfMass`: the
source folds over `components` pushing
`lengthOfPreviousComponents + component.getCenterOfMass()`, where
`lengthOfPreviousComponents` re-sums `components[idx].getLength()` over the
indices of the accumulator built so far. -/
def dValues (cs : List Component) : List ℚ :=
  cs.foldl
    (fun acc component =>
      let lengthOfPreviousComponents :=
        if acc.length = 0 then 0
        else acc.enum.foldl (fun len p => len + (cs.getD p.1 Component.grabber).getLength) 0
      acc ++ [lengthOfPreviousComponents + component.getCenterOfMass])
    []

def getCenterOfMass (segmentLengths : List ℚ) : ℚ :=
  let cs := components segmentLengths
  let d := dValues cs
  let numerator := cs.enum.foldl (fun weightedMass p => weightedMass + p.2.getMass * d.getD p.1 0) 0
  let denominator := cs.foldl (fun mass component => mass + component.getMass) 0
  numerator / denominator

/-- `Massive.getTorqueAtBase` applied to the composite. -/
def getTorqueAtBase (segmentLengths : List ℚ) : ℚ :=
  getCenterOfMass segmentLengths * getMass segmentLengths

end Arm

/-! ### Partition generator -/

/-- Source: `range(start, end) = [...Array(end - start)].map((_, i) => i + start)`. -/
def range (start stop : ℕ) : List ℕ := (List.range (stop - start)).map (fun i => i + start)

/-- Source: `irange(start, end) = range(start, end + 1)`. -/
def irange (start stop : ℕ) : List ℕ := range start (stop + 1)

/-- Sequential concatenation of the results each loop iteration pushes into
the shared accumulator `acc` of the source's backtracking search. -/
def concatMap (f : α → List β) : List α → List β
  | [] => []
  | a :: l => f a ++ concatMap f l

/-- Source: `[...new Set(input)]` — distinct values in first-occurrence order. -/
def jsDedup (l : List ℕ) : List ℕ :=
  l.foldl (fun acc a => if a ∈ acc then acc else acc ++ [a]) []

/-- Lexicographic comparison of strings (lists of characters) by code point,
as JavaScript's `<` on strings. -/
def strLe : List Char → List Char → Bool
  | [], _ => true
  | _ :: _, [] => false
  | a :: as, b :: bs =>
    if a.toNat < b.toNat then true
    else if b.toNat < a.toNat then false
    else strLe as bs

/-- JavaScript's default `Array.prototype.sort()` comparator: compare the
decimal string representations of the numbers. -/
def jsLe (a b : ℕ) : Bool := strLe (Nat.toDigits 10 a) (Nat.toDigits 10 b)

/-- The sorted, deduplicated input on which the search runs:
`[...new Set(input)].sort()`. -/
def jsSortDedup (input : List ℕ) : List ℕ :=
  (jsDedup input).insertionSort (fun a b => jsLe a b = true)

/-- The backtracking search `findNumbers(acc, input, sum, index, temp)`.
The extra `fuel` argument bounds the recursion depth (see the module
comment); every recursive call in the source strictly decreases `sum`,
and `sum + 1` fuel is proved sufficient for positive domains. -/
def findNumbers (input : List ℕ) : ℕ → ℕ → ℕ → List ℕ → List (List ℕ)
  | 0, _, _, _ => []
  | fuel + 1, sum, index, temp =>
    if sum = 0 then [temp]
    else
      concatMap
        (fun i =>
          if input.getD i 0 ≤ sum then
            findNumbers input fuel (sum - input.getD i 0) i (temp ++ [input.getD i 0])
          else [])
        (range index input.length)

def findAllCombinations (input : List ℕ) (sum : ℕ) (maxLength : ℕ) : List (List ℕ) :=
  (findNumbers (jsSortDedup input) (sum + 1) sum 0 []).filter
    (fun combo => decide (combo.length = maxLength))

def percentDifference (v1 v2 : ℚ) : ℚ := abs (v1 - v2) / ((v1 + v2) / 2) * 100

/-! ### Configuration search and ranking (the top-level script) -/

def SEGMENTS : ℕ := 3

def TOTAL_LENGTH : ℕ := 72

def MIN_LENGTH : ℕ := 12

def possibleArmLengths : List (List ℕ) :=
  findAllCombinations (irange MIN_LENGTH (TOTAL_LENGTH - MIN_LENGTH * (SEGMENTS - 1)))
    TOTAL_LENGTH SEGMENTS

/-- Modelled from the spec: the external `array-permutation` dependency
(`Permutations.permutation`, not part of this repository) produces every
ordering (index permutation) of its input, per spec §4.3; it is modelled
by `List.permutations`. -/
def possibleArmLengthPermutations : List (List ℕ) :=
  concatMap List.permutations possibleArmLengths

/-- The source filters with a predicate that is constantly `true`
(all alternatives are commented out). -/
def filteredArmLengthPermutations : List (List ℕ) :=
  possibleArmLengthPermutations.filter (fun _armConfig => true)

def arms : List (List ℚ) :=
  filteredArmLengthPermutations.map (fun armConfig => armConfig.map (fun (n : ℕ) => (n : ℚ)))

/-- The relation used by `arms.sort((a, b) => a.getTorqueAtBase() - b.getTorqueAtBase())`. -/
def armTorqueLe (a b : List ℚ) : Prop := Arm.getTorqueAtBase a ≤ Arm.getTorqueAtBase b

instance : DecidableRel armTorqueLe := fun a b =>
  inferInstanceAs (Decidable (Arm.getTorqueAtBase a ≤ Arm.getTorqueAtBase b))

/-- `arms` after the in-place ascending sort by torque (the source sorts the
array before taking `arms[0]`, `arms[arms.length - 1]` and before `arms.find`). -/
def armsSorted : List (List ℚ) := arms.insertionSort armTorqueLe

def bestArm : List ℚ := armsSorted.getD 0 []

def worstArm : List ℚ := armsSorted.getD (armsSorted.length - 1) []

/-- The predicate of the symmetric-configuration `arms.find(...)`: the first
three components report equal `length()`. (Every generated arm has exactly
four components, so the `getD` defaults are never used.) -/
def isSymmetric (arm : List ℚ) : Bool :=
  decide (((Arm.components arm).getD 0 Component.grabber).getLength =
      ((Arm.components arm).getD 1 Component.grabber).getLength ∧
    ((Arm.components arm).getD 1 Component.grabber).getLength =
      ((Arm.components arm).getD 2 Component.grabber).getLength)

def symmetricArm : Option (List ℚ) := armsSorted.find? isSymmetric

/-! ### Spec-side formulas (for refinement claims) -/

/-- Following the spec's words (§3): the claimed total mass of a structural
segment,
`materialMass + motorMass + gearboxBaseMass + 3 × gearboxStageMass + sprocketMass`
with
`materialMass = ((length + 2×edgeAllowance) × width − (holeArea + roundedCornerLoss)) × thickness × density × reductionRatio × 2`
and no further additive term. -/
def specSegmentMass (length : ℚ) : ℚ :=
  ((length + 2 * Segment.BEARING_EDGE_DISTANCE) * Segment.SEGMENT_WIDTH -
        (Segment.HOLE_AREA + Segment.ROUND_AREA)) * Segment.MATERIAL_THICKNESS *
      Segment.MATERIAL_DENSITY * Segment.WEIGHT_REDUCTION * 2 +
    Segment.NEO_MOTOR_MASS + Segment.GEARBOX_BASE_KIT_MASS +
    3 * Segment.GEARBOX_5_STAGE_MASS + Segment.CHAIN_SPROCKET_MASS

/-- Sum of the lengths of the components with index below `n`, exactly as
the inner reduce of `Arm.dValues` computes it (proof helper). -/
def prevLenSum (cs : List Component) (n : ℕ) : ℚ :=
  (List.range n).foldl (fun len idx => len + (cs.getD idx Component.grabber).getLength) 0

/-- Indexed sum of `F` over a list, starting the index at `k` (proof helper). -/
def idxSum {β : Type*} (F : ℕ → β → ℚ) : ℕ → List β → ℚ
  | _, [] => 0
  | k, a :: l => F k a + idxSum F (k + 1) l

/-- Recursive form of the weighted center-of-mass numerator:
`Σ mᵢ × (o + cumulativeLengthᵢ + localCenterᵢ)` where `o` is the offset of
the first listed component from the arm base (proof helper). -/
def specNum : List Component → ℚ → ℚ
  | [], _ => 0
  | c :: t, o => c.getMass * (o + c.getCenterOfMass) + specNum t (o + c.getLength)

/-- Conditions on a component under which the composite center of mass is
strictly between `0` and the total length: positive mass, non-negative local
center of mass, local center of mass strictly below the component's length. -/
def GoodComponent (c : Component) : Prop :=
  0 < c.getMass ∧ 0 ≤ c.getCenterOfMass ∧ c.getCenterOfMass < c.getLength

/-- The spec's center-of-mass formula:
`Σ(mass_i × (cumulativeLength_i + localCenter_i)) / Σ(mass_i)` where
`cumulativeLength_i` is the sum of the lengths of components `0..i−1`. -/
def specCenterOfMass (cs : List Component) : ℚ :=
  ((cs.enum.map fun ic =>
        ic.2.getMass * (((cs.take ic.1).map Component.getLength).sum + ic.2.getCenterOfMass)).sum) /
    ((cs.map Component.getMass).sum)

/-! ### Generic list helpers -/

theorem mem_range_iff {start stop i : ℕ} : i ∈ range start stop ↔ start ≤ i ∧ i < stop := by
  simp only [range, List.mem_map, List.mem_range]
  constructor
  · rintro ⟨j, hj, rfl⟩; omega
  · intro h; exact ⟨i - start, by omega, by omega⟩

theorem mem_concatMap {f : α → List β} {b : β} :
    ∀ {l : List α}, b ∈ concatMap f l ↔ ∃ a ∈ l, b ∈ f a := by
  intro l
  induction l with
  | nil => simp [concatMap]
  | cons a l ih => simp [concatMap, ih]

theorem concatMap_congr {f g : α → List β} :
    ∀ {l : List α}, (∀ a ∈ l, f a = g a) → concatMap f l = concatMap g l := by
  intro l
  induction l with
  | nil => intro; rfl
  | cons a l ih =>
    intro h
    simp only [concatMap]
    rw [h a (by simp), ih (fun a ha => h a (by simp [ha]))]

theorem nodup_concatMap {f : α → List β} :
    ∀ {l : List α}, (∀ a ∈ l, (f a).Nodup) →
      l.Pairwise (fun a a' => ∀ b, b ∈ f a → b ∈ f a' → False) →
      (concatMap f l).Nodup := by
  intro l
  induction l with
  | nil => intro _ _; simp [concatMap]
  | cons a l ih =>
    intro h1 h2
    rw [List.pairwise_cons] at h2
    refine List.Nodup.append (h1 a (by simp)) (ih (fun a ha => h1 a (by simp [ha])) h2.2) ?_
    intro b hb hb'
    obtain ⟨a', ha', hba'⟩ := mem_concatMap.1 hb'
    exact h2.1 a' ha' b hb hba'

theorem getD_mem_of_lt {l : List α} {i : ℕ} (h : i < l.length) (d : α) : l.getD i d ∈ l := by
  rw [List.getD_eq_getElem l d h]
  exact List.getElem_mem h

theorem foldl_add_eq {β : Type*} (f : β → ℚ) :
    ∀ (l : List β) (init : ℚ), l.foldl (fun acc x => acc + f x) init = init + (l.map f).sum := by
  intro l
  induction l with
  | nil => simp
  | cons a l ih => intro init; simp [ih, add_assoc]

/-! ### Characterisation of the backtracking search

`Chain input index l` captures exactly the value sequences the search can
append after cursor position `index`: each element is read from `input` at
a position at or after the position of the previous element (the source
recurses with the cursor left at `i`, not `i + 1`, so positions may
repeat). -/

inductive Chain (input : List ℕ) : ℕ → List ℕ → Prop
  | nil (index : ℕ) : Chain input index []
  | cons (index i : ℕ) (l : List ℕ) (hle : index ≤ i) (hi : i < input.length)
      (tail : Chain input i l) : Chain input index (input.getD i 0 :: l)

theorem Chain.subset_input {input : List ℕ} :
    ∀ {index : ℕ} {l : List ℕ}, Chain input index l → ∀ x ∈ l, x ∈ input := by
  intro index l h
  induction h with
  | nil => simp
  | cons index i l hle hi tail ih =>
    intro x hx
    rcases List.mem_cons.1 hx with rfl | hx
    · exact getD_mem_of_lt hi 0
    · exact ih x hx

theorem Chain.mono {input : List ℕ} {index index' : ℕ} {l : List ℕ}
    (h : Chain input index l) (hle : index' ≤ index) : Chain input index' l := by
  cases h with
  | nil => exact Chain.nil index'
  | cons index i l h1 h2 tail => exact Chain.cons index' i l (le_trans hle h1) h2 tail

/-- Membership characterisation of `findNumbers`, for positive domains and
sufficient fuel: the results are exactly `temp` extended by a cursor chain
whose values consume `sum` exactly. -/
theorem mem_findNumbers {input : List ℕ} (hpos : ∀ x ∈ input, 0 < x) :
    ∀ (fuel : ℕ) {sum index : ℕ} {temp r : List ℕ}, sum < fuel →
      (r ∈ findNumbers input fuel sum index temp ↔
        ∃ l, r = temp ++ l ∧ Chain input index l ∧ l.sum = sum) := by
  intro fuel
  induction fuel with
  | zero => intro sum index temp r h; omega
  | succ n ih =>
    intro sum index temp r hlt
    by_cases hs : sum = 0
    · subst hs
      have heq : findNumbers input (n + 1) 0 index temp = [temp] := by
        simp [findNumbers]
      rw [heq, List.mem_singleton]
      constructor
      · rintro rfl
        exact ⟨[], by simp, Chain.nil index, rfl⟩
      · rintro ⟨l, rfl, hchain, hsum⟩
        cases l with
        | nil => simp
        | cons x t =>
          exfalso
          have hx : 0 < x := hpos x (hchain.subset_input x (by simp))
          simp only [List.sum_cons] at hsum
          omega
    · simp only [findNumbers, if_neg hs]
      rw [mem_concatMap]
      constructor
      · rintro ⟨i, hi, hr⟩
        obtain ⟨hi1, hi2⟩ := mem_range_iff.1 hi
        by_cases hguard : input.getD i 0 ≤ sum
        · rw [if_pos hguard] at hr
          have hposi : 0 < input.getD i 0 := hpos _ (getD_mem_of_lt hi2 0)
          have : sum - input.getD i 0 < n := by omega
          obtain ⟨l, rfl, hchain, hsum⟩ := (ih this).1 hr
          refine ⟨input.getD i 0 :: l, by simp, Chain.cons index i l hi1 hi2 hchain, ?_⟩
          simp only [List.sum_cons]
          omega
        · rw [if_neg hguard] at hr
          simp at hr
      · rintro ⟨l, rfl, hchain, hsum⟩
        cases hchain with
        | nil => simp at hsum; omega
        | cons index i l hle hi tail =>
          have hposi : 0 < input.getD i 0 := hpos _ (getD_mem_of_lt hi 0)
          simp only [List.sum_cons] at hsum
          refine ⟨i, mem_range_iff.2 ⟨hle, hi⟩, ?_⟩
          rw [if_pos (by omega)]
          have hlt' : sum - input.getD i 0 < n := by omega
          refine (ih hlt').2 ⟨l, by simp, tail, by omega⟩

theorem getElem_range' {start stop a : ℕ} (ha : a < (range start stop).length) :
    (range start stop)[a] = a + start := by
  simp [range]

/-- First element appended after `temp` in any result of a recursive branch:
every result of the branch at cursor `i` carries `input.getD i 0` at
position `temp.length`. -/
theorem getD_of_mem_branch {input : List ℕ} (hpos : ∀ x ∈ input, 0 < x)
    {n sum i : ℕ} {temp r : List ℕ} (hlt : sum < n)
    (hr : r ∈ findNumbers input n sum i (temp ++ [input.getD i 0])) :
    r.getD temp.length 0 = input.getD i 0 := by
  obtain ⟨l, rfl, -, -⟩ := (mem_findNumbers hpos n hlt).1 hr
  rw [List.append_assoc, List.getD_append_right temp _ 0 temp.length (le_refl _)]
  simp

/-- The results of `findNumbers` are pairwise distinct (for a deduplicated
positive domain): distinct cursor positions hold distinct values, so the
branches of the loop are disjoint and each branch is distinct by induction. -/
theorem nodup_findNumbers {input : List ℕ} (hpos : ∀ x ∈ input, 0 < x)
    (hnd : input.Nodup) :
    ∀ (fuel : ℕ) {sum index : ℕ} {temp : List ℕ}, sum < fuel →
      (findNumbers input fuel sum index temp).Nodup := by
  intro fuel
  induction fuel with
  | zero => intro sum index temp h; omega
  | succ n ih =>
    intro sum index temp hlt
    by_cases hs : sum = 0
    · subst hs; simp [findNumbers]
    · simp only [findNumbers, if_neg hs]
      refine nodup_concatMap ?_ ?_
      · intro i hi
        by_cases hguard : input.getD i 0 ≤ sum
        · rw [if_pos hguard]
          have hi2 := (mem_range_iff.1 hi).2
          have hposi : 0 < input.getD i 0 := hpos _ (getD_mem_of_lt hi2 0)
          exact ih (by omega)
        · rw [if_neg hguard]; exact List.nodup_nil
      · rw [List.pairwise_iff_getElem]
        intro a b ha hb hab r hra hrb
        rw [getElem_range' ha] at hra
        rw [getElem_range' hb] at hrb
        set ia := a + index with hia_def
        set ib := b + index with hib_def
        by_cases hga : input.getD ia 0 ≤ sum
        · by_cases hgb : input.getD ib 0 ≤ sum
          · rw [if_pos hga] at hra
            rw [if_pos hgb] at hrb
            have hia2 : ia < input.length := by
              have := ha; rw [range, List.length_map, List.length_range] at this; omega
            have hib2 : ib < input.length := by
              have := hb; rw [range, List.length_map, List.length_range] at this; omega
            have hva : 0 < input.getD ia 0 := hpos _ (getD_mem_of_lt hia2 0)
            have hvb : 0 < input.getD ib 0 := hpos _ (getD_mem_of_lt hib2 0)
            have h1 := getD_of_mem_branch hpos (by omega) hra
            have h2 := getD_of_mem_branch hpos (by omega) hrb
            have hv : input.getD ia 0 = input.getD ib 0 := by rw [← h1, ← h2]
            rw [List.getD_eq_getElem input 0 hia2, List.getD_eq_getElem input 0 hib2] at hv
            have := (List.Nodup.getElem_inj_iff hnd).1 hv
            omega
          · rw [if_neg hgb] at hrb; simp at hrb
        · rw [if_neg hga] at hra; simp at hra

theorem mem_jsDedup_aux {x : ℕ} :
    ∀ (l acc : List ℕ),
      (x ∈ l.foldl (fun acc a => if a ∈ acc then acc else acc ++ [a]) acc ↔ x ∈ acc ∨ x ∈ l) := by
  intro l
  induction l with
  | nil => intro acc; simp
  | cons a l ih =>
    intro acc
    simp only [List.foldl_cons, ih, List.mem_cons]
    by_cases ha : a ∈ acc
    · rw [if_pos ha]
      constructor
      · rintro (h | h) <;> tauto
      · rintro (h | rfl | h) <;> tauto
    · rw [if_neg ha]
      simp only [List.mem_append, List.mem_singleton]
      tauto

theorem mem_jsDedup {x : ℕ} {l : List ℕ} : x ∈ jsDedup l ↔ x ∈ l := by
  rw [jsDedup, mem_jsDedup_aux]
  simp

theorem nodup_jsDedup_aux :
    ∀ (l acc : List ℕ), acc.Nodup →
      (l.foldl (fun acc a => if a ∈ acc then acc else acc ++ [a]) acc).Nodup := by
  intro l
  induction l with
  | nil => intro acc h; simpa using h
  | cons a l ih =>
    intro acc h
    simp only [List.foldl_cons]
    by_cases ha : a ∈ acc
    · rw [if_pos ha]; exact ih acc h
    · rw [if_neg ha]
      refine ih _ (List.Nodup.append h (List.nodup_singleton a) ?_)
      intro b hb hb'
      rw [List.mem_singleton] at hb'
      subst hb'
      exact ha hb

theorem nodup_jsDedup {l : List ℕ} : (jsDedup l).Nodup :=
  nodup_jsDedup_aux l [] List.nodup_nil

theorem mem_jsSortDedup {x : ℕ} {l : List ℕ} : x ∈ jsSortDedup l ↔ x ∈ l := by
  rw [jsSortDedup, List.mem_insertionSort, mem_jsDedup]

theorem nodup_jsSortDedup {l : List ℕ} : (jsSortDedup l).Nodup :=
  (List.perm_insertionSort _ _).nodup_iff.2 nodup_jsDedup

/-- Fuel-irrelevance of the search on positive domains: once the fuel
exceeds the remaining sum, its exact value does not matter — the recursion
halts within `sum` levels because every step strictly decreases `sum`.
This is the totality/termination argument for the source's `findNumbers`. -/
theorem findNumbers_fuel_irrelevant {input : List ℕ} (hpos : ∀ x ∈ input, 0 < x) :
    ∀ (fuel₁ : ℕ) {sum index : ℕ} {temp : List ℕ} (fuel₂ : ℕ),
      sum < fuel₁ → sum < fuel₂ →
      findNumbers input fuel₁ sum index temp = findNumbers input fuel₂ sum index temp := by
  intro fuel₁
  induction fuel₁ with
  | zero => intro sum index temp fuel₂ h _; omega
  | succ n ih =>
    intro sum index temp fuel₂ h1 h2
    cases fuel₂ with
    | zero => omega
    | succ m =>
      by_cases hs : sum = 0
      · subst hs; simp [findNumbers]
      · simp only [findNumbers, if_neg hs]
        refine concatMap_congr ?_
        intro i hi
        by_cases hguard : input.getD i 0 ≤ sum
        · rw [if_pos hguard, if_pos hguard]
          have hi2 := (mem_range_iff.1 hi).2
          have hposi : 0 < input.getD i 0 := hpos _ (getD_mem_of_lt hi2 0)
          exact ih m (by omega) (by omega)
        · rw [if_neg hguard, if_neg hguard]

/-- Membership characterisation of `findAllCombinations`, for positive
domains: the results are exactly the cursor chains over the sorted
deduplicated domain with the required sum and length. -/
theorem mem_findAllCombinations {input : List ℕ} (hpos : ∀ x ∈ input, 0 < x)
    {sum k : ℕ} {r : List ℕ} :
    r ∈ findAllCombinations input sum k ↔
      Chain (jsSortDedup input) 0 r ∧ r.sum = sum ∧ r.length = k := by
  have hpos' : ∀ x ∈ jsSortDedup input, 0 < x := fun x hx => hpos x (mem_jsSortDedup.1 hx)
  rw [findAllCombinations, List.mem_filter,
    mem_findNumbers hpos' (sum + 1) (by omega)]
  constructor
  · rintro ⟨⟨l, hrl, hchain, hsum⟩, hlen⟩
    rw [List.nil_append] at hrl
    subst hrl
    exact ⟨hchain, hsum, by simpa using hlen⟩
  · rintro ⟨hchain, hsum, hlen⟩
    exact ⟨⟨r, (List.nil_append r).symm, hchain, hsum⟩, by simpa using hlen⟩

theorem nodup_findAllCombinations {input : List ℕ} (hpos : ∀ x ∈ input, 0 < x)
    (sum k : ℕ) : (findAllCombinations input sum k).Nodup := by
  have hpos' : ∀ x ∈ jsSortDedup input, 0 < x := fun x hx => hpos x (mem_jsSortDedup.1 hx)
  exact List.Nodup.filter _
    (nodup_findNumbers hpos' nodup_jsSortDedup (sum + 1) (by omega))

theorem count_eq_one_of_nodup_of_mem {α : Type*} [BEq α] [LawfulBEq α] {a : α} :
    ∀ {l : List α}, l.Nodup → a ∈ l → l.count a = 1 := by
  intro l
  induction l with
  | nil => intro _ h; simp at h
  | cons b l ih =>
    intro hnd hm
    rw [List.count_cons]
    rcases List.mem_cons.1 hm with rfl | hm
    · rw [List.count_eq_zero.2 (List.nodup_cons.1 hnd).1]
      simp
    · rw [List.nodup_cons] at hnd
      have hne : b ≠ a := fun h => hnd.1 (h ▸ hm)
      rw [ih hnd.2 hm, if_neg (by simpa using hne)]

/-- A cursor chain over a `≤`-sorted list is weakly ascending. -/
theorem Chain.chain'_le {input : List ℕ} (hsorted : input.Pairwise (· ≤ ·)) :
    ∀ {index : ℕ} {l : List ℕ}, Chain input index l → List.Chain' (· ≤ ·) l := by
  intro index l h
  induction h with
  | nil => simp
  | cons index i l hle hi tail ih =>
    cases tail with
    | nil => simp
    | cons i j l' hle' hj tail' =>
      rw [List.chain'_cons]
      refine ⟨?_, ih⟩
      rw [List.getD_eq_getElem input 0 hi, List.getD_eq_getElem input 0 hj]
      rcases lt_or_eq_of_le hle' with h' | h'
      · exact (List.pairwise_iff_getElem.1 hsorted) i j hi hj h'
      · subst h'; exact le_refl _

/-! ### Bridging the Arm folds to the spec's sums -/

theorem prevLenSum_zero (cs : List Component) : prevLenSum cs 0 = 0 := by
  simp [prevLenSum]

theorem prevLenSum_succ (cs : List Component) (j : ℕ) :
    prevLenSum cs (j + 1) = prevLenSum cs j + (cs.getD j Component.grabber).getLength := by
  rw [prevLenSum, prevLenSum, List.range_succ, List.foldl_append, List.foldl_cons, List.foldl_nil]

theorem dValues_inner (cs : List Component) (acc : List ℚ) :
    acc.enum.foldl (fun len p => len + (cs.getD p.1 Component.grabber).getLength) 0 =
      prevLenSum cs acc.length := by
  have h1 := List.foldl_map (Prod.fst (α := ℕ) (β := ℚ))
    (fun len i => len + (cs.getD i Component.grabber).getLength) acc.enum 0
  have h2 : acc.enum.map Prod.fst = List.range acc.length := by
    rw [List.enum, List.enumFrom_map_fst, List.range_eq_range']
  rw [h2] at h1
  rw [prevLenSum, ← h1]

theorem getD_map_range (f : ℕ → ℚ) {n i : ℕ} (h : i < n) :
    ((List.range n).map f).getD i 0 = f i := by
  rw [List.getD_eq_getElem _ _ (by simpa using h)]
  simp

theorem dValues_fun_eq (cs : List Component) :
    (fun (acc : List ℚ) (component : Component) =>
      let lengthOfPreviousComponents :=
        if acc.length = 0 then 0
        else acc.enum.foldl (fun len p => len + (cs.getD p.1 Component.grabber).getLength) 0
      acc ++ [lengthOfPreviousComponents + component.getCenterOfMass]) =
    fun (acc : List ℚ) (component : Component) =>
      acc ++ [prevLenSum cs acc.length + component.getCenterOfMass] := by
  funext acc component
  show acc ++ [(if acc.length = 0 then 0
      else acc.enum.foldl (fun len p => len + (cs.getD p.1 Component.grabber).getLength) 0) +
        component.getCenterOfMass] = _
  by_cases h : acc.length = 0
  · rw [if_pos h, h, prevLenSum_zero]
  · rw [if_neg h, dValues_inner]

theorem dValues_go (cs : List Component) :
    ∀ (suf : List Component) (acc : List ℚ),
      suf.foldl
        (fun (acc : List ℚ) (component : Component) =>
          acc ++ [prevLenSum cs acc.length + component.getCenterOfMass])
        acc =
      acc ++ (List.range suf.length).map
        (fun k => prevLenSum cs (acc.length + k) +
          (suf.getD k Component.grabber).getCenterOfMass) := by
  intro suf
  induction suf with
  | nil => intro acc; simp
  | cons c suf ih =>
    intro acc
    rw [List.foldl_cons, ih, List.append_assoc]
    congr 1
    rw [List.length_cons, List.range_succ_eq_map, List.map_cons, List.map_map,
      List.singleton_append]
    congr 1
    congr 1
    funext k
    simp only [Function.comp_apply, Nat.succ_eq_add_one, List.getD_cons_succ,
      List.length_append, List.length_singleton]
    congr 2
    omega

theorem dValues_eq (cs : List Component) :
    Arm.dValues cs = (List.range cs.length).map
      (fun k => prevLenSum cs k + (cs.getD k Component.grabber).getCenterOfMass) := by
  rw [Arm.dValues, dValues_fun_eq]
  have h := dValues_go cs cs []
  simpa using h

theorem foldl_enumFrom_eq_idxSum {β : Type*} (F : ℕ → β → ℚ) :
    ∀ (l : List β) (k : ℕ) (init : ℚ),
      (l.enumFrom k).foldl (fun acc p => acc + F p.1 p.2) init = init + idxSum F k l := by
  intro l
  induction l with
  | nil => intro k init; simp [idxSum]
  | cons a l ih => intro k init; rw [List.enumFrom_cons, List.foldl_cons, ih, idxSum]; ring

theorem sum_map_enumFrom_eq_idxSum {β : Type*} (F : ℕ → β → ℚ) :
    ∀ (l : List β) (k : ℕ), ((l.enumFrom k).map (fun p => F p.1 p.2)).sum = idxSum F k l := by
  intro l
  induction l with
  | nil => intro k; simp [idxSum]
  | cons a l ih => intro k; rw [List.enumFrom_cons, List.map_cons, List.sum_cons, ih, idxSum]

theorem idxSum_congr_on_drop {F G : ℕ → Component → ℚ} (full : List Component)
    (h : ∀ i, i < full.length →
      F i (full.getD i Component.grabber) = G i (full.getD i Component.grabber)) :
    ∀ (t : List Component) (k : ℕ), full.drop k = t → idxSum F k t = idxSum G k t := by
  intro t
  induction t with
  | nil => intro k _; rfl
  | cons c t ih =>
    intro k hdrop
    have hk : k < full.length := by
      by_contra hk
      rw [List.drop_eq_nil_iff.2 (by omega)] at hdrop
      exact List.cons_ne_nil c t hdrop.symm
    have hdec : full.drop k = full[k] :: full.drop (k + 1) := List.drop_eq_getElem_cons hk
    rw [hdrop] at hdec
    injection hdec with h1 h2
    have hgD : full.getD k Component.grabber = c := by
      rw [List.getD_eq_getElem full _ hk, ← h1]
    rw [idxSum, idxSum, ih (k + 1) h2.symm, ← hgD, h k hk]

theorem idxSum_eq_specNum (full : List Component) (pre : ℕ → ℚ)
    (hpre : ∀ j, j < full.length →
      pre (j + 1) = pre j + (full.getD j Component.grabber).getLength) :
    ∀ (t : List Component) (k : ℕ), full.drop k = t →
      idxSum (fun i c => c.getMass * (pre i + c.getCenterOfMass)) k t = specNum t (pre k) := by
  intro t
  induction t with
  | nil => intro k _; rfl
  | cons c t ih =>
    intro k hdrop
    have hk : k < full.length := by
      by_contra hk
      rw [List.drop_eq_nil_iff.2 (by omega)] at hdrop
      exact List.cons_ne_nil c t hdrop.symm
    have hdec : full.drop k = full[k] :: full.drop (k + 1) := List.drop_eq_getElem_cons hk
    rw [hdrop] at hdec
    injection hdec with h1 h2
    have hgD : full.getD k Component.grabber = c := by
      rw [List.getD_eq_getElem full _ hk, ← h1]
    rw [idxSum, specNum, ih (k + 1) h2.symm]
    have := hpre k hk
    rw [hgD] at this
    rw [this]

theorem arm_numerator_eq (cs : List Component) :
    cs.enum.foldl
        (fun weightedMass p => weightedMass + p.2.getMass * (Arm.dValues cs).getD p.1 0) 0 =
      specNum cs 0 := by
  have h1 : cs.enum.foldl
      (fun weightedMass p => weightedMass + p.2.getMass * (Arm.dValues cs).getD p.1 0) 0 =
      0 + idxSum (fun i c => c.getMass * (Arm.dValues cs).getD i 0) 0 cs :=
    foldl_enumFrom_eq_idxSum (fun i c => c.getMass * (Arm.dValues cs).getD i 0) cs 0 0
  rw [h1, zero_add]
  have hcong := @idxSum_congr_on_drop
    (fun i c => c.getMass * (Arm.dValues cs).getD i 0)
    (fun i c => c.getMass * (prevLenSum cs i + c.getCenterOfMass)) cs
    (fun i hi => by simp only []; rw [dValues_eq, getD_map_range _ hi]) cs 0 (by simp)
  rw [hcong]
  have := idxSum_eq_specNum cs (prevLenSum cs) (fun j _ => prevLenSum_succ cs j) cs 0 (by simp)
  rwa [prevLenSum_zero] at this

theorem takeLenSum_succ (cs : List Component) (j : ℕ) (hj : j < cs.length) :
    ((cs.take (j + 1)).map Component.getLength).sum =
      ((cs.take j).map Component.getLength).sum + (cs.getD j Component.grabber).getLength := by
  rw [List.take_succ, List.getElem?_eq_getElem hj, List.map_append, List.sum_append,
    List.getD_eq_getElem cs _ hj]
  simp

theorem spec_numerator_eq (cs : List Component) :
    (cs.enum.map fun ic =>
        ic.2.getMass * (((cs.take ic.1).map Component.getLength).sum + ic.2.getCenterOfMass)).sum =
      specNum cs 0 := by
  have h1 : (cs.enum.map fun ic =>
      ic.2.getMass * (((cs.take ic.1).map Component.getLength).sum + ic.2.getCenterOfMass)).sum =
      idxSum (fun i c =>
        c.getMass * (((cs.take i).map Component.getLength).sum + c.getCenterOfMass)) 0 cs :=
    sum_map_enumFrom_eq_idxSum
      (fun i c => c.getMass * (((cs.take i).map Component.getLength).sum + c.getCenterOfMass)) cs 0
  rw [h1]
  have h2 := idxSum_eq_specNum cs (fun i => ((cs.take i).map Component.getLength).sum)
    (fun j hj => takeLenSum_succ cs j hj) cs 0 (by simp)
  rw [h2]
  simp

theorem arm_getMass_eq (lengths : List ℚ) :
    Arm.getMass lengths = ((Arm.components lengths).map Component.getMass).sum := by
  rw [Arm.getMass, foldl_add_eq, zero_add]

theorem arm_getLength_eq (lengths : List ℚ) :
    Arm.getLength lengths = ((Arm.components lengths).map Component.getLength).sum := by
  rw [Arm.getLength, foldl_add_eq, zero_add]

theorem arm_getCenterOfMass_eq (lengths : List ℚ) :
    Arm.getCenterOfMass lengths =
      specNum (Arm.components lengths) 0 /
        ((Arm.components lengths).map Component.getMass).sum := by
  show ((Arm.components lengths).enum.foldl
        (fun weightedMass p =>
          weightedMass + p.2.getMass * (Arm.dValues (Arm.components lengths)).getD p.1 0) 0) /
      ((Arm.components lengths).foldl (fun mass component => mass + component.getMass) 0) = _
  rw [arm_numerator_eq, foldl_add_eq, zero_add]

theorem arm_getCenterOfMass_spec (lengths : List ℚ) :
    Arm.getCenterOfMass lengths = specCenterOfMass (Arm.components lengths) := by
  rw [arm_getCenterOfMass_eq, specCenterOfMass, spec_numerator_eq]

/-! ### Bounds on the weighted numerator -/

theorem specNum_append (xs ys : List Component) :
    ∀ (o : ℚ), specNum (xs ++ ys) o =
      specNum xs o + specNum ys (o + (xs.map Component.getLength).sum) := by
  induction xs with
  | nil => intro o; simp [specNum]
  | cons c xs ih =>
    intro o
    simp only [List.cons_append, specNum, List.map_cons, List.sum_cons, List.append_eq]
    rw [ih, show o + c.getLength + (xs.map Component.getLength).sum =
      o + (c.getLength + (xs.map Component.getLength).sum) from by ring]
    ring

theorem sum_len_nonneg {cs : List Component} (h : ∀ c ∈ cs, GoodComponent c) :
    0 ≤ (cs.map Component.getLength).sum := by
  refine List.sum_nonneg ?_
  rintro x hx
  obtain ⟨c, hc, rfl⟩ := List.mem_map.1 hx
  obtain ⟨-, h2, h3⟩ := h c hc
  linarith

theorem sum_mass_nonneg {cs : List Component} (h : ∀ c ∈ cs, GoodComponent c) :
    0 ≤ (cs.map Component.getMass).sum := by
  refine List.sum_nonneg ?_
  rintro x hx
  obtain ⟨c, hc, rfl⟩ := List.mem_map.1 hx
  exact (h c hc).1.le

theorem specNum_nonneg :
    ∀ (cs : List Component), (∀ c ∈ cs, GoodComponent c) →
      ∀ (o : ℚ), 0 ≤ o → 0 ≤ specNum cs o := by
  intro cs
  induction cs with
  | nil => intro _ o _; simp [specNum]
  | cons c t ih =>
    intro h o ho
    obtain ⟨hm, hc0, hcl⟩ := h c (by simp)
    have h1 : 0 ≤ c.getMass * (o + c.getCenterOfMass) := mul_nonneg hm.le (by linarith)
    have h2 : 0 ≤ specNum t (o + c.getLength) :=
      ih (fun c' hc' => h c' (by simp [hc'])) (o + c.getLength) (by linarith)
    rw [specNum]
    linarith

theorem specNum_lt :
    ∀ (cs : List Component), cs ≠ [] → (∀ c ∈ cs, GoodComponent c) →
      ∀ (o : ℚ), 0 ≤ o →
        specNum cs o < (cs.map Component.getMass).sum * (o + (cs.map Component.getLength).sum) := by
  intro cs
  induction cs with
  | nil => intro h; exact absurd rfl h
  | cons c t ih =>
    intro _ h o ho
    obtain ⟨hm, hc0, hcl⟩ := h c (by simp)
    have hlen : 0 < c.getLength := lt_of_le_of_lt hc0 hcl
    by_cases ht : t = []
    · subst ht
      simp only [specNum, List.map_cons, List.map_nil, List.sum_cons, List.sum_nil]
      have hstep : o + c.getCenterOfMass < o + (c.getLength + 0) := by linarith
      have := mul_lt_mul_of_pos_left hstep hm
      linarith
    · have htg : ∀ c' ∈ t, GoodComponent c' := fun c' hc' => h c' (by simp [hc'])
      have h2 := ih ht htg (o + c.getLength) (by linarith)
      have hlsum : 0 ≤ (t.map Component.getLength).sum := sum_len_nonneg htg
      have hmsum : 0 ≤ (t.map Component.getMass).sum := sum_mass_nonneg htg
      simp only [specNum, List.map_cons, List.sum_cons]
      have h1 : c.getMass * (o + c.getCenterOfMass) <
          c.getMass * (o + (c.getLength + (t.map Component.getLength).sum)) := by
        apply mul_lt_mul_of_pos_left _ hm
        linarith
      nlinarith [h1, h2, hmsum, hlsum, hm]

theorem segment_good {L : ℚ} (h : 5 ≤ L) : GoodComponent (Component.segment L) := by
  simp only [GoodComponent, Component.getMass, Component.getCenterOfMass, Component.getLength]
  refine ⟨?_, ?_, ?_⟩
  · rw [Segment.getMass, Segment.materialMass]
    simp only [Segment.SEGMENT_WIDTH, Segment.MATERIAL_THICKNESS, Segment.MATERIAL_DENSITY,
      Segment.TOTAL_NEGATIVE_AREA, Segment.HOLE_AREA, Segment.ROUND_AREA, Segment.MATH_PI,
      Segment.BEARING_EDGE_DISTANCE, Segment.WEIGHT_REDUCTION, Segment.CAN_SPARK_MAX,
      Segment.NEO_MOTOR_MASS, Segment.GEARBOX_BASE_KIT_MASS, Segment.GEARBOX_5_STAGE_MASS,
      Segment.CHAIN_SPROCKET_MASS]
    nlinarith [h]
  · rw [Segment.getCenterOfMass]
    simp only [Segment.MASS_OFFSET]
    linarith
  · rw [Segment.getCenterOfMass, Segment.getLength]
    simp only [Segment.MASS_OFFSET]
    linarith

theorem grabber_good : GoodComponent Component.grabber := by
  simp only [GoodComponent, Component.getMass, Component.getCenterOfMass, Component.getLength,
    Grabber.getMass, Grabber.getLength, Grabber.getCenterOfMass]
  norm_num

theorem components_good {lengths : List ℚ} (h : ∀ L ∈ lengths, 5 ≤ L) :
    ∀ c ∈ Arm.components lengths, GoodComponent c := by
  intro c hc
  rw [Arm.components] at hc
  rcases List.mem_append.1 hc with hc | hc
  · obtain ⟨L, hL, rfl⟩ := List.mem_map.1 hc
    exact segment_good (h L hL)
  · rw [List.mem_singleton] at hc
    subst hc
    exact grabber_good

theorem arm_mass_sum_pos {lengths : List ℚ} (h : ∀ L ∈ lengths, 5 ≤ L) :
    0 < ((Arm.components lengths).map Component.getMass).sum := by
  rw [Arm.components, List.map_append, List.sum_append]
  have h1 : 0 ≤ ((lengths.map Component.segment).map Component.getMass).sum := by
    refine sum_mass_nonneg ?_
    intro c hc
    obtain ⟨L, hL, rfl⟩ := List.mem_map.1 hc
    exact segment_good (h L hL)
  have h2 : (([Component.grabber] : List Component).map Component.getMass).sum = 7.5 := by
    simp [Component.getMass, Grabber.getMass]
  rw [h2]
  linarith

theorem arm_numerator_pos {lengths : List ℚ} (h : ∀ L ∈ lengths, 5 ≤ L) :
    0 < specNum (Arm.components lengths) 0 := by
  rw [Arm.components, specNum_append]
  have hgood : ∀ c ∈ lengths.map Component.segment, GoodComponent c := by
    intro c hc
    obtain ⟨L, hL, rfl⟩ := List.mem_map.1 hc
    exact segment_good (h L hL)
  have h1 : 0 ≤ specNum (lengths.map Component.segment) 0 :=
    specNum_nonneg _ hgood 0 le_rfl
  have hlsum : 0 ≤ ((lengths.map Component.segment).map Component.getLength).sum :=
    sum_len_nonneg hgood
  have h2 : specNum [Component.grabber]
      (0 + ((lengths.map Component.segment).map Component.getLength).sum) =
      7.5 * (0 + ((lengths.map Component.segment).map Component.getLength).sum + 4) := by
    simp only [specNum, Component.getMass, Component.getCenterOfMass, Grabber.getMass,
      Grabber.getCenterOfMass]
    ring
  rw [h2]
  nlinarith [hlsum, h1]

/-! ### The default run -/

theorem irange_default_pos : ∀ x ∈ irange 12 48, 0 < x := by decide

/-- The default domain happens to be fixed by the string sort: all its
elements have two decimal digits, so the lexicographic string order agrees
with the numeric order. -/
theorem jsSortDedup_default : jsSortDedup (irange 12 48) = irange 12 48 := by decide

theorem sorted_default_domain : (irange 12 48).Pairwise (· ≤ ·) := by decide

/-- The partition `[24, 24, 24]` is a cursor chain of the default domain:
the value `24` sits at position `12` and the cursor may stay in place. -/
theorem chain_24 : Chain (irange 12 48) 0 [24, 24, 24] := by
  have h24 : (irange 12 48).getD 12 0 = 24 := by decide
  have hlen : 12 < (irange 12 48).length := by decide
  have h0 : Chain (irange 12 48) 12 [] := Chain.nil 12
  have h1 : Chain (irange 12 48) 12 [24] := by
    have := @Chain.cons (irange 12 48) 12 12 [] (le_refl _) hlen h0
    rwa [h24] at this
  have h2 : Chain (irange 12 48) 12 [24, 24] := by
    have := @Chain.cons (irange 12 48) 12 12 [24] (le_refl _) hlen h1
    rwa [h24] at this
  have := @Chain.cons (irange 12 48) 0 12 [24, 24] (by omega) hlen h2
  rwa [h24] at this

theorem mem_24 : [24, 24, 24] ∈ findAllCombinations (irange 12 48) 72 3 := by
  rw [mem_findAllCombinations irange_default_pos, jsSortDedup_default]
  exact ⟨chain_24, by decide, by decide⟩

/-- The sequence `[10, 2]` is a cursor chain of the search for the domain
`[2, 10]`: the string sort puts `10` before `2`. -/
theorem chain_10_2 : Chain (jsSortDedup [2, 10]) 0 [10, 2] := by
  have hsort : jsSortDedup [2, 10] = [10, 2] := by decide
  rw [hsort]
  have h10 : ([10, 2] : List ℕ).getD 0 0 = 10 := rfl
  have h2 : ([10, 2] : List ℕ).getD 1 0 = 2 := rfl
  have t0 : Chain [10, 2] 1 [] := Chain.nil 1
  have t1 : Chain [10, 2] 0 [2] := by
    have := @Chain.cons [10, 2] 0 1 [] (by omega) (by decide) t0
    rwa [h2] at this
  have := @Chain.cons [10, 2] 0 0 [2] (le_refl _) (by decide) t1
  rwa [h10] at this

/-! ### Sanity checks on small inputs -/

example : findAllCombinations [2, 10] 12 2 = [[10, 2]] := by decide

example : Arm.getMass [] = 7.5 := by
  norm_num [Arm.getMass, Arm.components, Component.getMass, Grabber.getMass]

example : Arm.getCenterOfMass [] = 4 := by
  norm_num [Arm.getCenterOfMass, Arm.dValues, Arm.components, Component.getMass,
    Component.getCenterOfMass, Grabber.getMass, Grabber.getCenterOfMass,
    List.enum, List.enumFrom]

/-! ### Claims about the partition generator -/

/-- C1 (counterexample): the partition generator, run with the default
domain `12..48`, target sum `72` and count `3`, does produce `[24, 24, 24]`,
a sequence that is not strictly ascending (the search recurses with the
cursor left at `i`, so a domain value may be reused). -/
theorem C1_counterexample :
    [24, 24, 24] ∈ findAllCombinations (irange 12 48) 72 3 ∧
      ¬ List.Chain' (· < ·) [24, 24, 24] :=
  ⟨mem_24, fun h => absurd (List.chain'_cons.1 h).1 (by omega)⟩

/-- C1 (amended): for the default domain `12..48` with target sum `72` and
count `3`, every sequence returned by the partition generator is weakly
ascending (non-decreasing; repeated values are allowed), and the repeated
partition `[24, 24, 24]` is produced. -/
theorem C1_partitions_weakly_ascending :
    (∀ r ∈ findAllCombinations (irange 12 48) 72 3, List.Chain' (· ≤ ·) r) ∧
      [24, 24, 24] ∈ findAllCombinations (irange 12 48) 72 3 := by
  constructor
  · intro r hr
    obtain ⟨hchain, -, -⟩ := (mem_findAllCombinations irange_default_pos).1 hr
    rw [jsSortDedup_default] at hchain
    exact hchain.chain'_le sorted_default_domain
  · exact mem_24

/-- C1 (witness for the amended claim at a concrete input). -/
theorem C1_partitions_weakly_ascending_witness : List.Chain' (· ≤ ·) [24, 24, 24] :=
  C1_partitions_weakly_ascending.1 [24, 24, 24] C1_partitions_weakly_ascending.2

/-- C4 (counterexample): for the domain `[2, 10]` (distinct positive
integers), target sum `12` and count `2`, the sequence `[2, 10]` is a
strictly increasing 2-length subsequence of the domain summing to the
target, yet it does not appear in the result: JavaScript's default sort is
lexicographic on decimal strings, so the search visits `10` before `2` and
returns `[10, 2]` instead. -/
theorem C4_counterexample :
    (List.Chain' (· < ·) [2, 10] ∧ ([2, 10] : List ℕ).sum = 12 ∧
        ([2, 10] : List ℕ).length = 2 ∧ ∀ x ∈ ([2, 10] : List ℕ), x ∈ ([2, 10] : List ℕ)) ∧
      findAllCombinations [2, 10] 12 2 = [[10, 2]] ∧
      [2, 10] ∉ findAllCombinations [2, 10] 12 2 := by
  refine ⟨⟨List.chain'_cons.2 ⟨by omega, List.chain'_singleton 10⟩, by decide, by decide,
    by decide⟩, by decide, by decide⟩

/-- C4 (amended): for every domain of positive integers, target sum and
required count `k`: every returned sequence has length exactly `k`, elements
drawn from the domain, and sums exactly to the target; and every `k`-length
sequence that is a cursor chain of the sorted deduplicated domain (ordered
by the search's decimal-string sort, repetition allowed) and sums to the
target appears exactly once in the result. -/
theorem C4_search_soundness_completeness (input : List ℕ) (hpos : ∀ x ∈ input, 0 < x)
    (sum k : ℕ) :
    (∀ r ∈ findAllCombinations input sum k,
        r.length = k ∧ r.sum = sum ∧ ∀ x ∈ r, x ∈ input) ∧
    (∀ r : List ℕ, Chain (jsSortDedup input) 0 r → r.sum = sum → r.length = k →
        (findAllCombinations input sum k).count r = 1) := by
  constructor
  · intro r hr
    obtain ⟨hchain, hsum, hlen⟩ := (mem_findAllCombinations hpos).1 hr
    exact ⟨hlen, hsum, fun x hx => mem_jsSortDedup.1 (hchain.subset_input x hx)⟩
  · intro r hchain hsum hlen
    exact count_eq_one_of_nodup_of_mem (nodup_findAllCombinations hpos sum k)
      ((mem_findAllCombinations hpos).2 ⟨hchain, hsum, hlen⟩)

/-- C4 (witness at a concrete input). -/
theorem C4_search_soundness_completeness_witness :
    (∀ x ∈ ([2, 10] : List ℕ), 0 < x) ∧
      (findAllCombinations [2, 10] 12 2).count [10, 2] = 1 :=
  ⟨by decide,
    (C4_search_soundness_completeness [2, 10] (by decide) 12 2).2 [10, 2] chain_10_2
      (by decide) (by decide)⟩

/-- C9: the partition search terminates on every domain of positive
integers: each recursive step strictly decreases the remaining sum, so the
recursion halts within `sum` levels; in the embedding, any fuel beyond the
remaining sum yields the same result (`findAllCombinations` runs the search
with fuel `sum + 1`). -/
theorem C9_termination (input : List ℕ) (hpos : ∀ x ∈ input, 0 < x)
    (sum index : ℕ) (temp : List ℕ) (fuel₁ fuel₂ : ℕ)
    (h₁ : sum < fuel₁) (h₂ : sum < fuel₂) :
    findNumbers input fuel₁ sum index temp = findNumbers input fuel₂ sum index temp :=
  findNumbers_fuel_irrelevant hpos fuel₁ fuel₂ h₁ h₂

/-- C9 (witness at a concrete input). -/
theorem C9_termination_witness :
    (∀ x ∈ ([10, 2] : List ℕ), 0 < x) ∧ 12 < 13 ∧ 12 < 100 ∧
      findNumbers [10, 2] 13 12 0 [] = findNumbers [10, 2] 100 12 0 [] :=
  ⟨by decide, by decide, by decide,
    C9_termination [10, 2] (by decide) 12 0 [] 13 100 (by decide) (by decide)⟩

/-! ### Claims about the physical model -/

/-- C3 (counterexample): at length `12`, the segment mass computed by the
code differs from the spec's claimed total
`materialMass + motorMass + gearboxBaseMass + 3×gearboxStageMass + sprocketMass`:
the code also adds the motor-controller mass `CAN_SPARK_MAX = 0.25`. -/
theorem C3_counterexample : Segment.getMass 12 ≠ specSegmentMass 12 := by
  rw [Segment.getMass, Segment.materialMass, specSegmentMass]
  simp only [Segment.TOTAL_NEGATIVE_AREA, Segment.CAN_SPARK_MAX, Segment.NEO_MOTOR_MASS,
    Segment.GEARBOX_BASE_KIT_MASS, Segment.GEARBOX_5_STAGE_MASS, Segment.CHAIN_SPROCKET_MASS]
  intro h
  have : (0.25 : ℚ) = 0 := by linarith [h]
  norm_num at this

/-- C3 (amended): for every length `L`, the segment's total mass equals the
spec's formula plus the additional motor-controller mass
`CAN_SPARK_MAX = 0.25`; the material-mass factor itself agrees exactly with
the spec's formula. -/
theorem C3_segment_mass (L : ℚ) :
    Segment.getMass L = specSegmentMass L + Segment.CAN_SPARK_MAX := by
  rw [Segment.getMass, Segment.materialMass, specSegmentMass, Segment.TOTAL_NEGATIVE_AREA]
  ring

/-- C5: for every Arm, the mass is the sum of the component masses, the
length is the sum of the component lengths, the center of mass is the
spec's mass-weighted average
`Σ(mass_i × (cumulativeLength_i + localCenter_i)) / Σ(mass_i)`, and the
torque at the base is the composite's own mass times its center of mass. -/
theorem C5_arm_aggregates (lengths : List ℚ) :
    Arm.getMass lengths = ((Arm.components lengths).map Component.getMass).sum ∧
      Arm.getLength lengths = ((Arm.components lengths).map Component.getLength).sum ∧
      Arm.getCenterOfMass lengths = specCenterOfMass (Arm.components lengths) ∧
      Arm.getTorqueAtBase lengths = Arm.getMass lengths * Arm.getCenterOfMass lengths :=
  ⟨arm_getMass_eq lengths, arm_getLength_eq lengths, arm_getCenterOfMass_spec lengths,
    by rw [Arm.getTorqueAtBase, mul_comm]⟩

/-- C7 (counterexample): an Arm built from the positive segment lengths
`[0.1, 0.1]` has a center of mass strictly below `0` (each tiny segment has
its local center of mass at `length − 5 < 0`), refuting the claim for
arbitrary positive lengths. -/
theorem C7_counterexample :
    (∀ L ∈ ([0.1, 0.1] : List ℚ), 0 < L) ∧ Arm.getCenterOfMass [0.1, 0.1] < 0 := by
  constructor
  · intro L hL
    rcases List.mem_cons.1 hL with rfl | hL
    · norm_num
    · rcases List.mem_cons.1 hL with rfl | hL
      · norm_num
      · simp at hL
  · rw [arm_getCenterOfMass_eq]
    have hN : specNum (Arm.components [0.1, 0.1]) 0 < 0 := by
      norm_num [Arm.components, specNum, Component.getMass, Component.getLength,
        Component.getCenterOfMass, Segment.getMass, Segment.materialMass, Segment.getLength,
        Segment.getCenterOfMass, Segment.SEGMENT_WIDTH, Segment.MATERIAL_THICKNESS,
        Segment.MATERIAL_DENSITY, Segment.TOTAL_NEGATIVE_AREA, Segment.HOLE_AREA,
        Segment.ROUND_AREA, Segment.MATH_PI, Segment.BEARING_EDGE_DISTANCE,
        Segment.WEIGHT_REDUCTION, Segment.CAN_SPARK_MAX, Segment.NEO_MOTOR_MASS,
        Segment.GEARBOX_BASE_KIT_MASS, Segment.GEARBOX_5_STAGE_MASS,
        Segment.CHAIN_SPROCKET_MASS, Segment.MASS_OFFSET, Grabber.getMass, Grabber.getLength,
        Grabber.getCenterOfMass]
    have hD : 0 < ((Arm.components [0.1, 0.1]).map Component.getMass).sum := by
      norm_num [Arm.components, Component.getMass, Segment.getMass, Segment.materialMass,
        Segment.SEGMENT_WIDTH, Segment.MATERIAL_THICKNESS, Segment.MATERIAL_DENSITY,
        Segment.TOTAL_NEGATIVE_AREA, Segment.HOLE_AREA, Segment.ROUND_AREA, Segment.MATH_PI,
        Segment.BEARING_EDGE_DISTANCE, Segment.WEIGHT_REDUCTION, Segment.CAN_SPARK_MAX,
        Segment.NEO_MOTOR_MASS, Segment.GEARBOX_BASE_KIT_MASS, Segment.GEARBOX_5_STAGE_MASS,
        Segment.CHAIN_SPROCKET_MASS, Grabber.getMass]
    exact div_neg_of_neg_of_pos hN hD

/-- C7 (amended): for every Arm whose segment lengths are all at least `5`
(the fixed `MASS_OFFSET`, so every local center of mass is non-negative —
in particular for all lengths the program generates, which are at least
`MIN_LENGTH = 12`), the center of mass is strictly between `0` and the
total length. -/
theorem C7_com_bounds (lengths : List ℚ) (h : ∀ L ∈ lengths, 5 ≤ L) :
    0 < Arm.getCenterOfMass lengths ∧
      Arm.getCenterOfMass lengths < Arm.getLength lengths := by
  have hgood := components_good h
  have hD := arm_mass_sum_pos h
  have hN := arm_numerator_pos h
  have hne : Arm.components lengths ≠ [] := by
    rw [Arm.components]
    intro hcontr
    exact absurd (List.append_eq_nil.1 hcontr).2 (by simp)
  have hNlt := specNum_lt (Arm.components lengths) hne hgood 0 le_rfl
  rw [arm_getCenterOfMass_eq, arm_getLength_eq]
  constructor
  · exact div_pos hN hD
  · rw [div_lt_iff₀ hD]
    rw [zero_add] at hNlt
    linarith [hNlt]

/-- C7 (witness for the amended claim at a concrete input). -/
theorem C7_com_bounds_witness :
    (∀ L ∈ ([12, 24, 36] : List ℚ), 5 ≤ L) ∧
      (0 < Arm.getCenterOfMass [12, 24, 36] ∧
        Arm.getCenterOfMass [12, 24, 36] < Arm.getLength [12, 24, 36]) :=
  ⟨by intro L hL; rcases List.mem_cons.1 hL with rfl | hL; · norm_num
      rcases List.mem_cons.1 hL with rfl | hL; · norm_num
      rcases List.mem_cons.1 hL with rfl | hL; · norm_num
      simp at hL,
    C7_com_bounds [12, 24, 36] (by
      intro L hL; rcases List.mem_cons.1 hL with rfl | hL; · norm_num
      rcases List.mem_cons.1 hL with rfl | hL; · norm_num
      rcases List.mem_cons.1 hL with rfl | hL; · norm_num
      simp at hL)⟩

/-- C8: reading back the component lengths of an Arm built from any ordered
length sequence reproduces the input sequence followed by exactly one
End Effector of length `12` as the final component. -/
theorem C8_roundtrip (lengths : List ℚ) :
    (Arm.components lengths).map Component.getLength = lengths ++ [Grabber.getLength] ∧
      (Arm.components lengths).getLast? = some Component.grabber ∧
      (Arm.components lengths).count Component.grabber = 1 ∧
      Grabber.getLength = 12 := by
  refine ⟨?_, ?_, ?_, rfl⟩
  · rw [Arm.components, List.map_append, List.map_map]
    congr 1
    have : Component.getLength ∘ Component.segment = id := by
      funext L
      simp [Component.getLength, Segment.getLength]
    rw [this, List.map_id]
  · rw [Arm.components]
    exact List.getLast?_concat _
  · rw [Arm.components, List.count_append]
    have h1 : (lengths.map Component.segment).count Component.grabber = 0 := by
      rw [List.count_eq_zero]
      intro hmem
      obtain ⟨L, -, hL⟩ := List.mem_map.1 hmem
      exact Component.noConfusion hL
    rw [h1]
    simp

/-- C10: constructing an Arm from the empty length sequence is well-defined:
its only component is the End Effector, its mass is `7.5`, its length `12`,
its center of mass `4` (no division by zero, since the End Effector's mass
is always part of the denominator) and its torque at the base `30`. -/
theorem C10_empty_arm :
    Arm.components [] = [Component.grabber] ∧ Arm.getMass [] = 7.5 ∧
      Arm.getLength [] = 12 ∧ Arm.getCenterOfMass [] = 4 ∧
      Arm.getTorqueAtBase [] = 30 := by
  have hmass : Arm.getMass [] = 7.5 := by
    norm_num [Arm.getMass, Arm.components, Component.getMass, Grabber.getMass]
  have hlen : Arm.getLength [] = 12 := by
    norm_num [Arm.getLength, Arm.components, Component.getLength, Grabber.getLength]
  have hcom : Arm.getCenterOfMass [] = 4 := by
    rw [arm_getCenterOfMass_eq]
    norm_num [Arm.components, specNum, Component.getMass, Component.getCenterOfMass,
      Grabber.getMass, Grabber.getCenterOfMass]
  refine ⟨by simp [Arm.components], hmass, hlen, hcom, ?_⟩
  rw [Arm.getTorqueAtBase, hmass, hcom]
  norm_num

/-! ### The generated arm list -/

theorem possibleArmLengths_eq :
    possibleArmLengths = findAllCombinations (irange 12 48) 72 3 := rfl

theorem mem_arms_24 : ([24, 24, 24] : List ℚ) ∈ arms := by
  rw [arms]
  refine List.mem_map.2 ⟨[24, 24, 24], ?_, by norm_num⟩
  rw [filteredArmLengthPermutations, List.mem_filter]
  refine ⟨?_, rfl⟩
  rw [possibleArmLengthPermutations, mem_concatMap]
  exact ⟨[24, 24, 24], by rw [possibleArmLengths_eq]; exact mem_24,
    List.mem_permutations.2 (List.Perm.refl _)⟩

theorem isSymmetric_24 : isSymmetric [24, 24, 24] = true := by
  simp [isSymmetric, Arm.components, Component.getLength, Segment.getLength]

/-- Every generated arm is a cast of a length-3 configuration summing to 72. -/
theorem mem_arms_shape {x : List ℚ} (hx : x ∈ arms) :
    ∃ cfg : List ℕ, x = cfg.map (fun (n : ℕ) => (n : ℚ)) ∧ cfg.length = 3 ∧ cfg.sum = 72 := by
  rw [arms] at hx
  obtain ⟨cfg, hcfg, rfl⟩ := List.mem_map.1 hx
  rw [filteredArmLengthPermutations, List.mem_filter] at hcfg
  obtain ⟨hcfg, -⟩ := hcfg
  rw [possibleArmLengthPermutations, mem_concatMap] at hcfg
  obtain ⟨p, hp, hperm⟩ := hcfg
  have hperm' : cfg.Perm p := List.mem_permutations.1 hperm
  rw [possibleArmLengths_eq] at hp
  obtain ⟨-, hsum, hlen⟩ := (mem_findAllCombinations irange_default_pos).1 hp
  exact ⟨cfg, rfl, by rw [hperm'.length_eq, hlen], by rw [hperm'.sum_eq, hsum]⟩

/-- The only symmetric arm in the generated list is the `[24, 24, 24]` arm:
three pairwise-equal segment lengths summing to `72` must each be `24`. -/
theorem symmetric_mem_arms_eq {x : List ℚ} (hx : x ∈ arms) (hsym : isSymmetric x = true) :
    x = [24, 24, 24] := by
  obtain ⟨cfg, rfl, hlen, hsum⟩ := mem_arms_shape hx
  rcases cfg with - | ⟨a, - | ⟨b, - | ⟨c, - | ⟨d, t⟩⟩⟩⟩
  · simp at hlen
  · simp at hlen
  · simp at hlen
  · simp only [isSymmetric, decide_eq_true_eq, Arm.components, List.map_cons, List.map_nil,
      List.cons_append, List.nil_append, List.getD_cons_zero, List.getD_cons_succ,
      Component.getLength, Segment.getLength] at hsym
    obtain ⟨h1, h2⟩ := hsym
    rw [Nat.cast_inj] at h1 h2
    simp only [List.sum_cons, List.sum_nil] at hsum
    have ha : a = 24 := by omega
    have hb : b = 24 := by omega
    have hc : c = 24 := by omega
    subst ha hb hc
    norm_num
  · simp at hlen

theorem armsSorted_pairwise : armsSorted.Pairwise armTorqueLe := by
  haveI : IsTotal (List ℚ) armTorqueLe := ⟨fun a b => le_total _ _⟩
  haveI : IsTrans (List ℚ) armTorqueLe := ⟨fun a b c h1 h2 => le_trans h1 h2⟩
  exact List.sorted_insertionSort armTorqueLe arms

theorem pairwise_getD_zero {α : Type*} {R : α → α → Prop} (hrefl : ∀ a, R a a)
    {l : List α} (hp : l.Pairwise R) {x : α} (hx : x ∈ l) (d : α) : R (l.getD 0 d) x := by
  cases l with
  | nil => simp at hx
  | cons a t =>
    rw [List.getD_cons_zero]
    rcases List.mem_cons.1 hx with rfl | hx
    · exact hrefl x
    · exact (List.pairwise_cons.1 hp).1 x hx

theorem pairwise_getD_last {α : Type*} {R : α → α → Prop} (hrefl : ∀ a, R a a) :
    ∀ {l : List α}, l.Pairwise R → ∀ {x : α}, x ∈ l → ∀ (d : α),
      R x (l.getD (l.length - 1) d) := by
  intro l
  induction l with
  | nil => intro _ x hx; simp at hx
  | cons a t ih =>
    intro hp x hx d
    cases t with
    | nil =>
      rcases List.mem_cons.1 hx with rfl | hx
      · exact hrefl x
      · simp at hx
    | cons b t' =>
      have hlen : (a :: b :: t').length - 1 = ((b :: t').length - 1) + 1 := by
        simp
      rw [hlen, List.getD_cons_succ]
      rcases List.mem_cons.1 hx with rfl | hx
      · have hmem : (b :: t').getD ((b :: t').length - 1) d ∈ b :: t' :=
          getD_mem_of_lt (by simp) d
        exact (List.pairwise_cons.1 hp).1 _ hmem
      · exact ih (List.pairwise_cons.1 hp).2 hx d

/-! ### Claims about the configuration search and ranking -/

/-- C2 (counterexample): for the default run parameters, the symmetric
lookup does find an Arm (the search produces the `[24, 24, 24]`
configuration, whose first three components all report length 24), so it
does not return the "none found" result. -/
theorem C2_counterexample : symmetricArm.isSome = true := by
  rw [symmetricArm, List.find?_isSome]
  exact ⟨[24, 24, 24], (List.mem_insertionSort _).2 mem_arms_24, isSymmetric_24⟩

/-- C2 (amended): for the default run parameters, the symmetric lookup
returns the Arm whose three segments all have length `24`. -/
theorem C2_symmetric_found : symmetricArm = some [24, 24, 24] := by
  have hsome : symmetricArm.isSome = true := by
    rw [symmetricArm, List.find?_isSome]
    exact ⟨[24, 24, 24], (List.mem_insertionSort _).2 mem_arms_24, isSymmetric_24⟩
  obtain ⟨x, hx⟩ := Option.isSome_iff_exists.1 hsome
  rw [symmetricArm] at hx
  have hpx : isSymmetric x = true := List.find?_some hx
  have hmem : x ∈ armsSorted := List.mem_of_find?_eq_some hx
  have hmem' : x ∈ arms := by
    rw [show armsSorted = arms.insertionSort armTorqueLe from rfl] at hmem
    exact (List.mem_insertionSort armTorqueLe).1 hmem
  have hx24 : x = [24, 24, 24] := symmetric_mem_arms_eq hmem' hpx
  rw [symmetricArm, hx, hx24]

/-- C6: after the ascending sort by torque, with `bestArm` the first and
`worstArm` the last element, every generated arm's torque lies between the
torques of `bestArm` and `worstArm`. -/
theorem C6_ranking : ∀ a ∈ arms,
    Arm.getTorqueAtBase bestArm ≤ Arm.getTorqueAtBase a ∧
      Arm.getTorqueAtBase a ≤ Arm.getTorqueAtBase worstArm := by
  intro a ha
  have ha' : a ∈ armsSorted := (List.mem_insertionSort _).2 ha
  have hrefl : ∀ x : List ℚ, armTorqueLe x x := fun x => le_refl _
  have hp := armsSorted_pairwise
  exact ⟨pairwise_getD_zero hrefl hp ha' [], pairwise_getD_last hrefl hp ha' []⟩

/-- C6 (witness at a concrete generated arm). -/
theorem C6_ranking_witness :
    Arm.getTorqueAtBase bestArm ≤ Arm.getTorqueAtBase [24, 24, 24] ∧
      Arm.getTorqueAtBase [24, 24, 24] ≤ Arm.getTorqueAtBase worstArm :=
  C6_ranking [24, 24, 24] mem_arms_24
